import Mathlib

/-!
Verification of the unit-graph serialization subsystem
(`src/cargo/core/compiler/unit_graph.rs`).

The Rust module defines the in-memory `UnitGraph` (a map from `Unit` to its
`UnitDep` edge list), the serialized document types
(`SerializedUnitGraph`, `SerializedUnit`, `SerializedUnitDep`),
the emitter `emit_serialized_unit_graph` and the loader-side
`SerializedUnitGraph::validate`.

Embedding conventions:
* `Unit` is not defined in the sources available here (only `unit_graph.rs`
  and the CLI shim are); its attribute list is modelled from the spec, §3.
  All leaf identity types (package ids, targets, interned strings, ...) are
  opaque to this module's logic and are modelled as `Nat`.
* A Rust `HashMap` iterated into a `Vec` is modelled as an association list
  in an arbitrary order; determinism claims quantify over permutations.
* Rust panics (indexing a map with a missing key) are modelled by `Option`,
  with `none` for a panic; `anyhow::bail!` errors are `Except String`.
* The work-list (`Vec::pop` from the back, `extend` at the back) is modelled
  by a Lean list whose head is the top of the stack, so seeding reverses the
  root list and pushed dependency lists are reversed before prepending.
* The work-list loop is given explicit fuel so that every definition stays
  structurally recursive and computable; `graphFuel` is an upper bound on the
  number of iterations, proved sufficient below.
-/

namespace Cargo

/-! ## A boolean lexicographic order on lists

Rust's `sort_unstable` on `Vec<(&Unit, &Vec<UnitDep>)>` uses the derived
`Ord`, a lexicographic comparison of structure fields.  We model it with a
hand-rolled boolean lexicographic order, instantiated on `Nat`-encoded data,
so that everything computes. -/

section LexOrder

variable {α : Type} [DecidableEq α] (lt : α → α → Bool)

/-- Strict lexicographic order on lists, parametrized by a strict order on
elements. -/
def lexLt : List α → List α → Bool
  | [], [] => false
  | [], _ :: _ => true
  | _ :: _, [] => false
  | a :: as, b :: bs => if lt a b then true else if a = b then lexLt as bs else false

/-- Reflexive lexicographic order on lists: a prefix is below any extension. -/
def lexLe : List α → List α → Bool
  | [], _ => true
  | _ :: _, [] => false
  | a :: as, b :: bs => if lt a b then true else if a = b then lexLe as bs else false

theorem lexLe_iff_lexLt_or_eq :
    ∀ l₁ l₂ : List α, lexLe lt l₁ l₂ = true ↔ (lexLt lt l₁ l₂ = true ∨ l₁ = l₂)
  | [], [] => by simp [lexLe, lexLt]
  | [], _ :: _ => by simp [lexLe, lexLt]
  | _ :: _, [] => by simp [lexLe, lexLt]
  | a :: as, b :: bs => by
    simp only [lexLe, lexLt]
    by_cases hab : lt a b
    · simp [hab]
    · by_cases heq : a = b
      · subst heq
        simp [hab, lexLe_iff_lexLt_or_eq as bs]
      · simp [hab, heq]

theorem lexLt_trichotomy (htri : ∀ a b, lt a b = true ∨ a = b ∨ lt b a = true) :
    ∀ l₁ l₂ : List α, lexLt lt l₁ l₂ = true ∨ l₁ = l₂ ∨ lexLt lt l₂ l₁ = true
  | [], [] => by simp [lexLt]
  | [], _ :: _ => by simp [lexLt]
  | _ :: _, [] => by simp [lexLt]
  | a :: as, b :: bs => by
    rcases htri a b with hab | heq | hba
    · left; simp [lexLt, hab]
    · subst heq
      rcases lexLt_trichotomy htri as bs with h | h | h
      · left; simp only [lexLt]; split <;> simp [h]
      · right; left; simp [h]
      · right; right; simp only [lexLt]; split <;> simp [h]
    · right; right; simp [lexLt, hba]

theorem lexLt_asymm (hasymm : ∀ a b, lt a b = true → lt b a = true → False) :
    ∀ l₁ l₂ : List α, lexLt lt l₁ l₂ = true → lexLt lt l₂ l₁ = true → False
  | [], [], h, _ => by simp [lexLt] at h
  | [], _ :: _, _, h' => by simp [lexLt] at h'
  | _ :: _, [], h, _ => by simp [lexLt] at h
  | a :: as, b :: bs, h, h' => by
    simp only [lexLt] at h h'
    by_cases hab : lt a b = true
    · by_cases hba : lt b a = true
      · exact hasymm a b hab hba
      · by_cases heq : b = a
        · exact hasymm a a (heq ▸ hab) (heq ▸ hab)
        · rw [if_neg hba, if_neg heq] at h'; cases h'
    · by_cases heq : a = b
      · rw [if_neg hab, if_pos heq] at h
        rw [if_neg (fun hba : lt b a = true => hasymm b b (heq ▸ hba) (heq ▸ hba)),
          if_pos heq.symm] at h'
        exact lexLt_asymm hasymm as bs h h'
      · rw [if_neg hab, if_neg heq] at h; cases h

theorem lexLt_trans (htrans : ∀ a b c, lt a b = true → lt b c = true → lt a c = true) :
    ∀ l₁ l₂ l₃ : List α, lexLt lt l₁ l₂ = true → lexLt lt l₂ l₃ = true →
      lexLt lt l₁ l₃ = true
  | [], [], _, h, _ => by simp [lexLt] at h
  | _ :: _, [], _, h, _ => by simp [lexLt] at h
  | [], _ :: _, [], _, h' => by simp [lexLt] at h'
  | [], _ :: _, _ :: _, _, _ => by simp [lexLt]
  | _ :: _, _ :: _, [], _, h' => by simp [lexLt] at h'
  | a :: as, b :: bs, c :: cs, h, h' => by
    simp only [lexLt] at h h' ⊢
    by_cases hab : lt a b = true
    · by_cases hbc : lt b c = true
      · rw [if_pos (htrans a b c hab hbc)]
      · by_cases heq : b = c
        · rw [if_pos (heq ▸ hab)]
        · rw [if_neg hbc, if_neg heq] at h'; cases h'
    · by_cases heq : a = b
      · rw [if_neg hab, if_pos heq] at h
        by_cases hbc : lt b c = true
        · rw [if_pos (heq ▸ hbc)]
        · rw [if_neg hbc] at h'
          by_cases heq' : b = c
          · rw [if_pos heq'] at h'
            rw [if_neg (heq' ▸ heq ▸ hab), if_pos (heq.trans heq')]
            exact lexLt_trans htrans as bs cs h h'
          · rw [if_neg heq'] at h'; cases h'
      · rw [if_neg hab, if_neg heq] at h; cases h

theorem lexLe_total (htri : ∀ a b, lt a b = true ∨ a = b ∨ lt b a = true)
    (l₁ l₂ : List α) : lexLe lt l₁ l₂ = true ∨ lexLe lt l₂ l₁ = true := by
  rcases lexLt_trichotomy lt htri l₁ l₂ with h | h | h
  · exact Or.inl ((lexLe_iff_lexLt_or_eq lt l₁ l₂).mpr (Or.inl h))
  · exact Or.inl ((lexLe_iff_lexLt_or_eq lt l₁ l₂).mpr (Or.inr h))
  · exact Or.inr ((lexLe_iff_lexLt_or_eq lt l₂ l₁).mpr (Or.inl h))

theorem lexLe_antisymm (hasymm : ∀ a b, lt a b = true → lt b a = true → False)
    (l₁ l₂ : List α) (h : lexLe lt l₁ l₂ = true) (h' : lexLe lt l₂ l₁ = true) :
    l₁ = l₂ := by
  rcases (lexLe_iff_lexLt_or_eq lt l₁ l₂).mp h with h1 | h1
  · rcases (lexLe_iff_lexLt_or_eq lt l₂ l₁).mp h' with h2 | h2
    · exact absurd h1 (fun h1 => lexLt_asymm lt hasymm l₁ l₂ h1 h2)
    · exact h2.symm
  · exact h1

theorem lexLe_trans (htrans : ∀ a b c, lt a b = true → lt b c = true → lt a c = true)
    (l₁ l₂ l₃ : List α) (h : lexLe lt l₁ l₂ = true) (h' : lexLe lt l₂ l₃ = true) :
    lexLe lt l₁ l₃ = true := by
  rcases (lexLe_iff_lexLt_or_eq lt l₁ l₂).mp h with h1 | h1
  · rcases (lexLe_iff_lexLt_or_eq lt l₂ l₃).mp h' with h2 | h2
    · exact (lexLe_iff_lexLt_or_eq lt l₁ l₃).mpr
        (Or.inl (lexLt_trans lt htrans l₁ l₂ l₃ h1 h2))
    · subst h2; exact h
  · subst h1; exact h'

end LexOrder

/-- Strict order on `Nat`, as a boolean. -/
def natLt (a b : Nat) : Bool := decide (a < b)

theorem natLt_trichotomy (a b : Nat) : natLt a b = true ∨ a = b ∨ natLt b a = true := by
  simp only [natLt, decide_eq_true_eq]; omega

theorem natLt_asymm (a b : Nat) : natLt a b = true → natLt b a = true → False := by
  simp only [natLt, decide_eq_true_eq]; omega

theorem natLt_trans (a b c : Nat) :
    natLt a b = true → natLt b c = true → natLt a c = true := by
  simp only [natLt, decide_eq_true_eq]; omega

/-- Strict lexicographic order on `List Nat`. -/
def lt1 : List Nat → List Nat → Bool := lexLt natLt

theorem lt1_trichotomy (a b : List Nat) : lt1 a b = true ∨ a = b ∨ lt1 b a = true :=
  lexLt_trichotomy natLt natLt_trichotomy a b

theorem lt1_asymm (a b : List Nat) : lt1 a b = true → lt1 b a = true → False :=
  lexLt_asymm natLt natLt_asymm a b

theorem lt1_trans (a b c : List Nat) : lt1 a b = true → lt1 b c = true → lt1 a c = true :=
  lexLt_trans natLt natLt_trans a b c

/-- Strict lexicographic order on `List (List Nat)`. -/
def lt2 : List (List Nat) → List (List Nat) → Bool := lexLt lt1

theorem lt2_trichotomy (a b : List (List Nat)) :
    lt2 a b = true ∨ a = b ∨ lt2 b a = true :=
  lexLt_trichotomy lt1 lt1_trichotomy a b

theorem lt2_asymm (a b : List (List Nat)) : lt2 a b = true → lt2 b a = true → False :=
  lexLt_asymm lt1 lt1_asymm a b

theorem lt2_trans (a b c : List (List Nat)) :
    lt2 a b = true → lt2 b c = true → lt2 a c = true :=
  lexLt_trans lt1 lt1_trans a b c

/-- Reflexive lexicographic order on `List (List (List Nat))`, the codomain of
the encoding of `(Unit, Vec<UnitDep>)` pairs. -/
def le3 : List (List (List Nat)) → List (List (List Nat)) → Bool := lexLe lt2

theorem le3_total (a b : List (List (List Nat))) : le3 a b = true ∨ le3 b a = true :=
  lexLe_total lt2 lt2_trichotomy a b

theorem le3_antisymm (a b : List (List (List Nat))) :
    le3 a b = true → le3 b a = true → a = b :=
  lexLe_antisymm lt2 lt2_asymm a b

theorem le3_trans (a b c : List (List (List Nat))) :
    le3 a b = true → le3 b c = true → le3 a c = true :=
  lexLe_trans lt2 lt2_trans a b c

/-! ## Data model

Leaf identity types used by the graph logic purely as opaque values with
decidable equality (package ids, target descriptors, profiles, compile kinds,
compile modes, interned strings, compile targets, purpose tags, raw strings)
are modelled as `Nat`. -/

abbrev PackageId := Nat
abbrev Target := Nat
abbrev Profile := Nat
abbrev CompileKind := Nat
abbrev CompileMode := Nat
abbrev CompileTarget := Nat
abbrev InternedString := Nat
abbrev UnitFor := Nat
abbrev RustString := Nat

/-- Modelled from the spec: `Unit` (one discrete build action) is defined
outside the sources available here; its attributes follow spec §3 and the
field accesses made by `emit_serialized_unit_graph`:  owning package identity,
target descriptor, profile, platform compile-kind, mode, active feature names,
per-unit rustc/rustdoc flags, the standard-library flag, the dependency
fingerprint hash, the artifact flag and optional artifact target, and the flag
bypassing the freshness check. -/
structure Unit where
  pkg : PackageId
  target : Target
  profile : Profile
  kind : CompileKind
  mode : CompileMode
  features : List InternedString
  rustflags : List RustString
  rustdocflags : List RustString
  is_std : Bool
  dep_hash : Nat
  artifact : Bool
  artifact_target_for_features : Option CompileTarget
  skip_freshness_check : Bool
  deriving DecidableEq

/-- A unit dependency (edge annotation), from `unit_graph.rs`. -/
structure UnitDep where
  unit : Unit
  unit_for : UnitFor
  extern_crate_name : InternedString
  dep_name : Option InternedString
  public : Bool
  noprelude : Bool
  deriving DecidableEq

/-- The dependency graph of Units: a `HashMap<Unit, Vec<UnitDep>>`, modelled
as an association list in an arbitrary iteration order. -/
abbrev UnitGraph := List (Unit × List UnitDep)

/-- Document format version emitted by the serializer. -/
def VERSION : Nat := 1

/-- One serialized dependency entry, from `unit_graph.rs`.  `public` and
`noprelude` are `Option`s: they are omitted from the document unless the
nightly opt-in is active. -/
structure SerializedUnitDep where
  index : Nat
  extern_crate_name : InternedString
  public : Option Bool
  noprelude : Option Bool
  dep_name : Option InternedString
  unit_for : UnitFor
  deriving DecidableEq

/-- One serialized unit, from `unit_graph.rs`. -/
structure SerializedUnit where
  pkg_id : PackageId
  target : Target
  profile : Profile
  platform : CompileKind
  mode : CompileMode
  features : List InternedString
  rustflags : List RustString
  rustdocflags : List RustString
  is_std : Bool
  dep_hash : Nat
  artifact : Bool
  artifact_target_for_features : Option CompileTarget
  extra_compiler_args : List RustString
  skip_freshness_check : Bool
  dependencies : List SerializedUnitDep
  deriving DecidableEq

/-- The serialized unit-graph document, from `unit_graph.rs`. -/
structure SerializedUnitGraph where
  version : Nat
  units : List SerializedUnit
  roots : List Nat
  deriving DecidableEq

/-- The slice of `BuildContext` that `emit_serialized_unit_graph` reads:
the nightly opt-in flag (`bcx.gctx.nightly_features_allowed`) and the
per-unit extra compiler argument map (`bcx.extra_compiler_args`). -/
structure BuildContext where
  nightly_features_allowed : Bool
  extra_compiler_args : Unit → Option (List RustString)

/-! ## Encoding of units, edges and graph entries into nested `Nat` lists

The encodings are injective; their lexicographic comparison provides the
total, deterministic order that the serializer's `sort_unstable` call relies
on (spec §4.1). -/

/-- Encoding of an optional `Nat`. -/
def encO : Option Nat → Nat
  | none => 0
  | some n => n + 1

theorem encO_inj {a b : Option Nat} (h : encO a = encO b) : a = b := by
  cases a <;> cases b <;> simp [encO] at h <;> simp [h]

theorem btoNat_inj {a b : Bool} (h : a.toNat = b.toNat) : a = b := by
  cases a <;> cases b <;> simp_all [Bool.toNat]

/-- Encoding of a `Unit` as a fixed-length list of `Nat` lists. -/
def encU (u : Unit) : List (List Nat) :=
  [[u.pkg], [u.target], [u.profile], [u.kind], [u.mode], u.features, u.rustflags,
    u.rustdocflags, [u.is_std.toNat], [u.dep_hash], [u.artifact.toNat],
    [encO u.artifact_target_for_features], [u.skip_freshness_check.toNat]]

theorem encU_length (u : Unit) : (encU u).length = 13 := rfl

theorem encU_inj {a b : Unit} (h : encU a = encU b) : a = b := by
  cases a; cases b
  simp only [encU, List.cons.injEq, and_true] at h
  obtain ⟨h1, h2, h3, h4, h5, h6, h7, h8, h9, h10, h11, h12, h13⟩ := h
  simp only [Unit.mk.injEq]
  exact ⟨h1, h2, h3, h4, h5, h6, h7, h8, btoNat_inj h9, h10, btoNat_inj h11,
    encO_inj h12, btoNat_inj h13⟩

/-- Encoding of a `UnitDep`: the encoding of its target unit followed by the
scalar edge annotations. -/
def encD (d : UnitDep) : List (List Nat) :=
  encU d.unit ++ [[d.unit_for, d.extern_crate_name, encO d.dep_name,
    d.public.toNat, d.noprelude.toNat]]

theorem encD_inj {a b : UnitDep} (h : encD a = encD b) : a = b := by
  obtain ⟨h1, h2⟩ := List.append_inj h (by simp [encU_length])
  cases a; cases b
  simp only [List.cons.injEq, and_true] at h2
  obtain ⟨g1, g2, g3, g4, g5⟩ := h2
  simp only [UnitDep.mk.injEq]
  exact ⟨encU_inj h1, g1, g2, encO_inj g3, btoNat_inj g4, btoNat_inj g5⟩

/-- Encoding of a graph entry `(Unit, Vec<UnitDep>)`. -/
def encPair (p : Unit × List UnitDep) : List (List (List Nat)) :=
  encU p.1 :: p.2.map encD

theorem encPair_inj {a b : Unit × List UnitDep} (h : encPair a = encPair b) :
    a = b := by
  obtain ⟨u, deps⟩ := a
  obtain ⟨v, deps2⟩ := b
  simp only [encPair, List.cons.injEq] at h
  obtain ⟨h1, h2⟩ := h
  have hd : deps = deps2 :=
    List.map_injective_iff.mpr (fun x y hxy => encD_inj hxy) h2
  cases encU_inj h1
  cases hd
  rfl

/-- The total order on graph entries that models the derived `Ord` used by
`units.sort_unstable()`. -/
def pairLE (a b : Unit × List UnitDep) : Prop :=
  le3 (encPair a) (encPair b) = true

instance : DecidableRel pairLE := fun a b =>
  inferInstanceAs (Decidable (le3 (encPair a) (encPair b) = true))

instance : IsTotal (Unit × List UnitDep) pairLE :=
  ⟨fun a b => le3_total (encPair a) (encPair b)⟩

instance : IsTrans (Unit × List UnitDep) pairLE :=
  ⟨fun a b c => le3_trans (encPair a) (encPair b) (encPair c)⟩

instance : IsAntisymm (Unit × List UnitDep) pairLE :=
  ⟨fun a b h h2 => encPair_inj (le3_antisymm (encPair a) (encPair b) h h2)⟩

/-! ## Option-valued helpers

Rust code that can panic (indexing a `HashMap` with a missing key) is
modelled with `Option`; collecting an iterator of such lookups is `mapMo`. -/

/-- Collect a list of fallible results, failing if any item fails. -/
def mapMo {α β : Type} (f : α → Option β) : List α → Option (List β)
  | [] => some []
  | a :: as =>
    match f a, mapMo f as with
    | some b, some bs => some (b :: bs)
    | _, _ => none

/-- Position of the first element satisfying `p`, if any: the model of a
`HashMap` lookup in a vector tagged with positions. -/
def findIdxo {α : Type} (p : α → Bool) : List α → Option Nat
  | [] => none
  | a :: as => if p a then some 0 else (findIdxo p as).map (· + 1)

/-! ## The serializer (`emit_serialized_unit_graph`) -/

/-- Canonical ordering of the graph entries: `units.sort_unstable()`. -/
def sortedUnits (unit_graph : UnitGraph) : UnitGraph :=
  List.insertionSort pairLE unit_graph

/-- The map for quick dependency lookup: each unit to its position in the
sorted sequence. -/
def indicesOf (units : UnitGraph) (u : Unit) : Option Nat :=
  findIdxo (fun p => decide (p.1 = u)) units

/-- Serialization of one `UnitDep`; `public`/`noprelude` are populated only
when nightly features are allowed. -/
def serializeUnitDep (bcx : BuildContext) (indices : Unit → Option Nat)
    (unit_dep : UnitDep) : Option SerializedUnitDep :=
  (indices unit_dep.unit).map (fun idx =>
    { index := idx,
      extern_crate_name := unit_dep.extern_crate_name,
      public := if bcx.nightly_features_allowed then some unit_dep.public else none,
      noprelude := if bcx.nightly_features_allowed then some unit_dep.noprelude else none,
      dep_name := unit_dep.dep_name,
      unit_for := unit_dep.unit_for })

/-- Serialization of one graph entry. -/
def serializeUnit (bcx : BuildContext) (indices : Unit → Option Nat)
    (p : Unit × List UnitDep) : Option SerializedUnit :=
  (mapMo (serializeUnitDep bcx indices) p.2).map (fun dependencies =>
    { pkg_id := p.1.pkg,
      target := p.1.target,
      profile := p.1.profile,
      platform := p.1.kind,
      mode := p.1.mode,
      features := p.1.features,
      rustflags := p.1.rustflags,
      rustdocflags := p.1.rustdocflags,
      is_std := p.1.is_std,
      dep_hash := p.1.dep_hash,
      artifact := p.1.artifact,
      artifact_target_for_features := p.1.artifact_target_for_features,
      extra_compiler_args := (bcx.extra_compiler_args p.1).getD [],
      skip_freshness_check := p.1.skip_freshness_check,
      dependencies := dependencies })

/-- The serializer: sort the graph entries into the canonical order, map
roots and dependencies through the position lookup, and build the document.
`none` models a panic (a root or an edge target that is not a graph key). -/
def emit_serialized_unit_graph (root_units : List Unit) (unit_graph : UnitGraph)
    (bcx : BuildContext) : Option SerializedUnitGraph :=
  let units := sortedUnits unit_graph
  let indices := indicesOf units
  (mapMo indices root_units).bind (fun roots =>
    (mapMo (serializeUnit bcx indices) units).map (fun ser_units =>
      { version := VERSION, units := ser_units, roots := roots }))

/-! ## The loader-side validator (`SerializedUnitGraph::validate`) -/

instance {E A : Type} [DecidableEq E] [DecidableEq A] : DecidableEq (Except E A) := fun
  | .error a, .error b =>
    if h : a = b then .isTrue (by rw [h]) else .isFalse (by intro hc; cases hc; exact h rfl)
  | .error _, .ok _ => .isFalse (by intro hc; cases hc)
  | .ok _, .error _ => .isFalse (by intro hc; cases hc)
  | .ok a, .ok b =>
    if h : a = b then .isTrue (by rw [h]) else .isFalse (by intro hc; cases hc; exact h rfl)

/-- The fatal message produced by `anyhow::bail!` when the work-list pops an
out-of-range index.  Mirroring the source, the second number printed is the
size of the visited set (`used_units.len()`) at the time of failure. -/
@[irreducible] def danglingMsg (index count : Nat) : String :=
  "unit graph has a dependency on unit #" ++ toString index ++
    " but contains only " ++ toString count ++ " units"

/-- The non-fatal warning emitted for an unreachable unit. -/
@[irreducible] def warnMsg (index : Nat) (pkg : PackageId) : String :=
  "unit #" ++ toString index ++ " (" ++ toString pkg ++
    ") is not a dependency of a root unit and will be ignored"

/-- Dependency indices recorded for one serialized unit. -/
def depIndices (u : SerializedUnit) : List Nat :=
  u.dependencies.map (fun dep => dep.index)

/-- The reachability work-list loop of `validate`: pop an index, fail if it
is out of range, otherwise mark it visited and push its dependency indices.
The list argument is the work-list with its head as the top of the stack.
`none` is fuel exhaustion (never reached when started with `graphFuel`). -/
def collectUsed (units : List SerializedUnit) :
    Nat → List Nat → Finset Nat → Option (Except String (Finset Nat))
  | 0, _, _ => none
  | _ + 1, [], used => some (.ok used)
  | fuel + 1, index :: rest, used =>
    if h : index < units.length then
      if index ∈ used then
        collectUsed units fuel rest used
      else
        collectUsed units fuel
          ((depIndices (units.get ⟨index, h⟩)).reverse ++ rest) (insert index used)
    else
      some (.error (danglingMsg index used.card))

/-- Rewriting of one dependency entry through the old-to-new index map;
`none` models the panic of the map indexing on a missing key. -/
def rewriteDep (imap : Nat → Option Nat) (dep : SerializedUnitDep) :
    Option SerializedUnitDep :=
  (imap dep.index).map (fun j => { dep with index := j })

/-- The compaction loop of `validate` over the enumerated unit list: a unit
whose old index is a key of the map survives with its dependency indices
rewritten; any other unit is dropped with one warning. -/
def compactUnits (imap : Nat → Option Nat) :
    List (Nat × SerializedUnit) → Option (List SerializedUnit × List String)
  | [] => some ([], [])
  | (index, u) :: rest =>
    if (imap index).isSome then
      (mapMo (rewriteDep imap) u.dependencies).bind (fun deps =>
        (compactUnits imap rest).map (fun p =>
          ({ u with dependencies := deps } :: p.1, p.2)))
    else
      (compactUnits imap rest).map (fun p => (p.1, warnMsg index u.pkg_id :: p.2))

/-- The visited indices collected into a vector and sorted
(`used_units.sort_unstable()`): for a set of `Nat` below `n` this is its
ascending enumeration. -/
def sortedUsed (n : Nat) (used : Finset Nat) : List Nat :=
  (List.range n).filter (fun i => decide (i ∈ used))

/-- The old-to-new index map built by enumerating the sorted visited list. -/
def imapOf (su : List Nat) (old : Nat) : Option Nat :=
  findIdxo (fun x => decide (x = old)) su

/-- Enumeration with explicit starting index, the model of
`iter().enumerate()`. -/
def enumFrom {A : Type} (i : Nat) : List A → List (Nat × A)
  | [] => []
  | a :: as => (i, a) :: enumFrom (i + 1) as

/-- Fuel sufficient for the whole work-list loop: every index is pushed at
most once per occurrence as a root or as a dependency entry. -/
def graphFuel (g : SerializedUnitGraph) : Nat :=
  g.roots.length + (g.units.map (fun u => u.dependencies.length)).sum + 1

/-- The validator.  The result pairs the final state of the document with
either the fatal dangling-index error (in which case the document is the
unmodified input) or the list of warnings emitted while pruning.  `none`
models a panic or fuel exhaustion; both are proved unreachable below. -/
def validate (g : SerializedUnitGraph) :
    Option (SerializedUnitGraph × Except String (List String)) :=
  match collectUsed g.units (graphFuel g) g.roots.reverse ∅ with
  | none => none
  | some (.error e) => some (g, .error e)
  | some (.ok used) =>
    if used.card = g.units.length then
      some (g, .ok [])
    else
      (compactUnits (imapOf (sortedUsed g.units.length used))
          (enumFrom 0 g.units)).bind (fun p =>
        (mapMo (imapOf (sortedUsed g.units.length used)) g.roots).map (fun roots =>
          ({ g with units := p.1, roots := roots }, .ok p.2)))

/-! ## Reachability, on documents and on graphs -/

/-- Reachability of a document index from the document roots through the
recorded dependency indices. -/
inductive DocReach (units : List SerializedUnit) (roots : List Nat) : Nat → Prop
  | root {i : Nat} : i ∈ roots → DocReach units roots i
  | step {i : Nat} (h : i < units.length) {dep : SerializedUnitDep} :
      DocReach units roots i → dep ∈ (units.get ⟨i, h⟩).dependencies →
      DocReach units roots dep.index

/-- Reachability of a unit from the root units through the in-memory graph
edges. -/
inductive GraphReach (unit_graph : UnitGraph) (root_units : List Unit) : Unit → Prop
  | root {u : Unit} : u ∈ root_units → GraphReach unit_graph root_units u
  | step {u : Unit} {deps : List UnitDep} {dep : UnitDep} :
      GraphReach unit_graph root_units u → (u, deps) ∈ unit_graph → dep ∈ deps →
      GraphReach unit_graph root_units dep.unit

/-! ## Concrete inputs used by witnesses and counterexamples -/

/-- A serialized unit holding opaque attribute values and the given package
id and dependency indices. -/
def mkSU (pkg : Nat) (deps : List Nat) : SerializedUnit :=
  { pkg_id := pkg, target := 0, profile := 0, platform := 0, mode := 0,
    features := [], rustflags := [], rustdocflags := [], is_std := false,
    dep_hash := 0, artifact := false, artifact_target_for_features := none,
    extra_compiler_args := [], skip_freshness_check := false,
    dependencies := deps.map (fun i =>
      { index := i, extern_crate_name := 0, public := none, noprelude := none,
        dep_name := none, unit_for := 0 }) }

/-- A concrete in-memory unit with the given package id. -/
def mkUnit (pkg : Nat) : Unit :=
  { pkg := pkg, target := 0, profile := 0, kind := 0, mode := 0, features := [],
    rustflags := [], rustdocflags := [], is_std := false, dep_hash := 0,
    artifact := false, artifact_target_for_features := none,
    skip_freshness_check := false }

/-- A concrete edge to the given unit. -/
def mkDep (u : Unit) : UnitDep :=
  { unit := u, unit_for := 0, extern_crate_name := 5, dep_name := none,
    public := true, noprelude := false }

/-- A build context with no nightly features and no extra compiler args. -/
def bcxStable : BuildContext :=
  { nightly_features_allowed := false, extra_compiler_args := fun _ => none }

/-- A build context with nightly features allowed. -/
def bcxNightly : BuildContext :=
  { nightly_features_allowed := true, extra_compiler_args := fun _ => none }

/-- The document that `emit_serialized_unit_graph` produces for the witness
graph `[(mkUnit 1, [mkDep (mkUnit 2)]), (mkUnit 2, [])]` with roots
`[mkUnit 1]` under the nightly context. -/
def wDocNightly : SerializedUnitGraph :=
  { version := 1,
    units := [
      { pkg_id := 1, target := 0, profile := 0, platform := 0, mode := 0,
        features := [], rustflags := [], rustdocflags := [], is_std := false,
        dep_hash := 0, artifact := false, artifact_target_for_features := none,
        extra_compiler_args := [], skip_freshness_check := false,
        dependencies := [
          { index := 1, extern_crate_name := 5, public := some true,
            noprelude := some false, dep_name := none, unit_for := 0 }] },
      { pkg_id := 2, target := 0, profile := 0, platform := 0, mode := 0,
        features := [], rustflags := [], rustdocflags := [], is_std := false,
        dep_hash := 0, artifact := false, artifact_target_for_features := none,
        extra_compiler_args := [], skip_freshness_check := false,
        dependencies := [] }],
    roots := [0] }

/-! ## Helper lemmas about `mapMo` and `findIdxo` -/

theorem mapMo_some_of_forall {A B : Type} {f : A → Option B} :
    ∀ {l : List A}, (∀ a ∈ l, (f a).isSome = true) → ∃ l2, mapMo f l = some l2
  | [], _ => ⟨[], rfl⟩
  | a :: as, h => by
    obtain ⟨b, hb⟩ := Option.isSome_iff_exists.mp (h a (List.mem_cons_self a as))
    obtain ⟨bs, hbs⟩ := mapMo_some_of_forall (fun x hx => h x (List.mem_cons_of_mem a hx))
    exact ⟨b :: bs, by simp [mapMo, hb, hbs]⟩

theorem mapMo_length {A B : Type} {f : A → Option B} :
    ∀ {l : List A} {l2 : List B}, mapMo f l = some l2 → l2.length = l.length
  | [], l2, h => by simp [mapMo] at h; simp [← h]
  | a :: as, l2, h => by
    simp only [mapMo] at h
    match hfa : f a, hrest : mapMo f as with
    | some b, some bs =>
      rw [hfa, hrest] at h
      have := mapMo_length hrest
      simp only [Option.some.injEq] at h
      simp [← h, List.length_cons, this]
    | some _, none => rw [hfa, hrest] at h; cases h
    | none, _ => rw [hfa] at h; cases h

theorem mapMo_mem {A B : Type} {f : A → Option B} :
    ∀ {l : List A} {l2 : List B}, mapMo f l = some l2 →
      ∀ b ∈ l2, ∃ a ∈ l, f a = some b
  | [], l2, h => by simp [mapMo] at h; simp_all
  | a :: as, l2, h => by
    simp only [mapMo] at h
    match hfa : f a, hrest : mapMo f as with
    | some b, some bs =>
      rw [hfa, hrest] at h
      simp only [Option.some.injEq] at h
      subst h
      intro x hx
      rcases List.mem_cons.mp hx with hx | hx
      · exact ⟨a, List.mem_cons_self a as, hx ▸ hfa⟩
      · obtain ⟨a2, ha2, hfa2⟩ := mapMo_mem hrest x hx
        exact ⟨a2, List.mem_cons_of_mem a ha2, hfa2⟩
    | some _, none => rw [hfa, hrest] at h; cases h
    | none, _ => rw [hfa] at h; cases h

theorem mapMo_mem_of_mem {A B : Type} {f : A → Option B} :
    ∀ {l : List A} {l2 : List B}, mapMo f l = some l2 →
      ∀ a ∈ l, ∃ b ∈ l2, f a = some b
  | [], _, _, a, ha => by cases ha
  | a :: as, l2, h, x, hx => by
    simp only [mapMo] at h
    match hfa : f a, hrest : mapMo f as with
    | some b, some bs =>
      rw [hfa, hrest] at h
      simp only [Option.some.injEq] at h
      subst h
      rcases List.mem_cons.mp hx with hx | hx
      · exact ⟨b, List.mem_cons_self b bs, hx ▸ hfa⟩
      · obtain ⟨b2, hb2, hfb2⟩ := mapMo_mem_of_mem hrest x hx
        exact ⟨b2, List.mem_cons_of_mem b hb2, hfb2⟩
    | some _, none => rw [hfa, hrest] at h; cases h
    | none, _ => rw [hfa] at h; cases h

theorem findIdxo_lt_length {A : Type} {p : A → Bool} :
    ∀ {l : List A} {i : Nat}, findIdxo p l = some i → i < l.length
  | [], i, h => by simp [findIdxo] at h
  | a :: as, i, h => by
    simp only [findIdxo] at h
    by_cases hp : p a
    · rw [if_pos hp] at h
      simp only [Option.some.injEq] at h
      simp [← h]
    · rw [if_neg hp] at h
      obtain ⟨j, hj, hij⟩ := Option.map_eq_some'.mp h
      have := findIdxo_lt_length hj
      simp [← hij, List.length_cons]
      omega

theorem findIdxo_get {A : Type} {p : A → Bool} :
    ∀ {l : List A} {i : Nat} (h : findIdxo p l = some i),
      p (l.get ⟨i, findIdxo_lt_length h⟩) = true
  | [], i, h => by simp [findIdxo] at h
  | a :: as, i, h => by
    have hlt := findIdxo_lt_length h
    simp only [findIdxo] at h
    by_cases hp : p a
    · rw [if_pos hp] at h
      simp only [Option.some.injEq] at h
      subst h
      simpa using hp
    · rw [if_neg hp] at h
      obtain ⟨j, hj, hij⟩ := Option.map_eq_some'.mp h
      subst hij
      simpa using findIdxo_get hj

theorem findIdxo_isSome {A : Type} {p : A → Bool} :
    ∀ {l : List A}, (∃ a ∈ l, p a = true) → (findIdxo p l).isSome = true
  | [], h => by simp at h
  | a :: as, h => by
    simp only [findIdxo]
    by_cases hp : p a
    · simp [hp]
    · rw [if_neg hp]
      obtain ⟨x, hx, hpx⟩ := h
      rcases List.mem_cons.mp hx with hx | hx
      · exact absurd (hx ▸ hpx) hp
      · have := findIdxo_isSome ⟨x, hx, hpx⟩
        simpa using this

/-! ## The canonical order fixes the map iteration order -/

theorem sortedUnits_perm (unit_graph : UnitGraph) :
    (sortedUnits unit_graph).Perm unit_graph :=
  List.perm_insertionSort pairLE unit_graph

theorem sortedUnits_eq_of_perm {g1 g2 : UnitGraph} (h : g1.Perm g2) :
    sortedUnits g1 = sortedUnits g2 :=
  List.eq_of_perm_of_sorted
    ((sortedUnits_perm g1).trans (h.trans (sortedUnits_perm g2).symm))
    (List.sorted_insertionSort pairLE g1)
    (List.sorted_insertionSort pairLE g2)

/-! ## Inversion of the serializer -/

theorem emit_eq_some_iff {root_units : List Unit} {unit_graph : UnitGraph}
    {bcx : BuildContext} {doc : SerializedUnitGraph} :
    emit_serialized_unit_graph root_units unit_graph bcx = some doc ↔
      ∃ roots ser_units,
        mapMo (indicesOf (sortedUnits unit_graph)) root_units = some roots ∧
        mapMo (serializeUnit bcx (indicesOf (sortedUnits unit_graph)))
          (sortedUnits unit_graph) = some ser_units ∧
        doc = { version := VERSION, units := ser_units, roots := roots } := by
  simp only [emit_serialized_unit_graph, Option.bind_eq_some, Option.map_eq_some']
  constructor
  · rintro ⟨roots, hr, ser_units, hs, hdoc⟩
    exact ⟨roots, ser_units, hr, hs, hdoc.symm⟩
  · rintro ⟨roots, ser_units, hr, hs, hdoc⟩
    exact ⟨roots, hr, ser_units, hs, hdoc.symm⟩

theorem indicesOf_isSome {units : UnitGraph} {u : Unit}
    (h : u ∈ units.map Prod.fst) : (indicesOf units u).isSome = true := by
  obtain ⟨p, hp, hpu⟩ := List.mem_map.mp h
  exact findIdxo_isSome ⟨p, hp, by simp [hpu]⟩

theorem indicesOf_lt_length {units : UnitGraph} {u : Unit} {i : Nat}
    (h : indicesOf units u = some i) : i < units.length :=
  findIdxo_lt_length h

/-- Claim C3 (determinism): the serializer's output is a function of the
graph contents only, not of the hash-map iteration order. -/
theorem emit_deterministic (root_units : List Unit) {g1 g2 : UnitGraph}
    (bcx : BuildContext) (h : g1.Perm g2) :
    emit_serialized_unit_graph root_units g1 bcx =
      emit_serialized_unit_graph root_units g2 bcx := by
  simp only [emit_serialized_unit_graph]
  rw [sortedUnits_eq_of_perm h]

/-- Witness for C3 at a concrete two-unit graph presented in two orders. -/
theorem emit_deterministic_witness :
    List.Perm [(mkUnit 2, ([] : List UnitDep)), (mkUnit 1, [mkDep (mkUnit 2)])]
      [(mkUnit 1, [mkDep (mkUnit 2)]), (mkUnit 2, [])] ∧
    emit_serialized_unit_graph [mkUnit 1]
        [(mkUnit 2, []), (mkUnit 1, [mkDep (mkUnit 2)])] bcxStable =
      emit_serialized_unit_graph [mkUnit 1]
        [(mkUnit 1, [mkDep (mkUnit 2)]), (mkUnit 2, [])] bcxStable :=
  ⟨by decide, emit_deterministic [mkUnit 1] bcxStable (by decide)⟩

/-- Claim C4 (density): under the serializer's precondition (roots and all
edge targets are graph keys) emission succeeds and every dependency index and
root index of the document is a valid index into its unit array. -/
theorem emit_dense {root_units : List Unit} {unit_graph : UnitGraph}
    {bcx : BuildContext}
    (hroots : ∀ r ∈ root_units, r ∈ unit_graph.map Prod.fst)
    (hedges : ∀ p ∈ unit_graph, ∀ dep ∈ p.2, dep.unit ∈ unit_graph.map Prod.fst) :
    ∃ doc, emit_serialized_unit_graph root_units unit_graph bcx = some doc ∧
      (∀ r ∈ doc.roots, r < doc.units.length) ∧
      (∀ su ∈ doc.units, ∀ dep ∈ su.dependencies, dep.index < doc.units.length) := by
  have hmapkeys : List.Perm ((sortedUnits unit_graph).map Prod.fst)
      (unit_graph.map Prod.fst) :=
    (sortedUnits_perm unit_graph).map Prod.fst
  have hkey : ∀ u, u ∈ unit_graph.map Prod.fst →
      u ∈ (sortedUnits unit_graph).map Prod.fst :=
    fun u hu => hmapkeys.mem_iff.mpr hu
  obtain ⟨roots, hr⟩ := mapMo_some_of_forall
    (f := indicesOf (sortedUnits unit_graph)) (l := root_units)
    (fun r hrm => indicesOf_isSome (hkey r (hroots r hrm)))
  obtain ⟨ser_units, hs⟩ := mapMo_some_of_forall
    (f := serializeUnit bcx (indicesOf (sortedUnits unit_graph)))
    (l := sortedUnits unit_graph)
    (fun p hpm => by
      have hpg : p ∈ unit_graph := (sortedUnits_perm unit_graph).mem_iff.mp hpm
      obtain ⟨deps, hdeps⟩ := mapMo_some_of_forall
        (f := serializeUnitDep bcx (indicesOf (sortedUnits unit_graph))) (l := p.2)
        (fun dep hdm => by
          simp only [serializeUnitDep, Option.isSome_map']
          exact indicesOf_isSome (hkey dep.unit (hedges p hpg dep hdm)))
      simp [serializeUnit, hdeps])
  have hlen : ser_units.length = (sortedUnits unit_graph).length := mapMo_length hs
  refine ⟨{ version := VERSION, units := ser_units, roots := roots },
    emit_eq_some_iff.mpr ⟨roots, ser_units, hr, hs, rfl⟩, ?_, ?_⟩
  · intro r hrm
    obtain ⟨a, _, ha⟩ := mapMo_mem hr r hrm
    simpa [hlen] using indicesOf_lt_length ha
  · intro su hsu dep hdep
    obtain ⟨p, _, hp⟩ := mapMo_mem hs su hsu
    simp only [serializeUnit, Option.map_eq_some'] at hp
    obtain ⟨deps, hdeps, hsueq⟩ := hp
    subst hsueq
    simp only at hdep
    obtain ⟨d, _, hd⟩ := mapMo_mem hdeps dep hdep
    simp only [serializeUnitDep, Option.map_eq_some'] at hd
    obtain ⟨idx, hidx, hdepeq⟩ := hd
    subst hdepeq
    simpa [hlen] using indicesOf_lt_length hidx

/-- Witness for C4 at a concrete two-unit graph. -/
theorem emit_dense_witness :
    (∀ r ∈ [mkUnit 1], r ∈
      ([(mkUnit 1, [mkDep (mkUnit 2)]), (mkUnit 2, [])] : UnitGraph).map Prod.fst) ∧
    (∀ p ∈ ([(mkUnit 1, [mkDep (mkUnit 2)]), (mkUnit 2, [])] : UnitGraph),
      ∀ dep ∈ p.2, dep.unit ∈
        ([(mkUnit 1, [mkDep (mkUnit 2)]), (mkUnit 2, [])] : UnitGraph).map Prod.fst) ∧
    ∃ doc, emit_serialized_unit_graph [mkUnit 1]
        [(mkUnit 1, [mkDep (mkUnit 2)]), (mkUnit 2, [])] bcxStable = some doc ∧
      (∀ r ∈ doc.roots, r < doc.units.length) ∧
      (∀ su ∈ doc.units, ∀ dep ∈ su.dependencies, dep.index < doc.units.length) :=
  ⟨by decide, by decide, emit_dense (by decide) (by decide)⟩

/-- Claim C8 (feature-gated fields): every emitted dependency entry has
`public` and `noprelude` both absent when the nightly opt-in is off and both
present when it is on; no entry ever has exactly one of them. -/
theorem emit_public_noprelude_paired {root_units : List Unit}
    {unit_graph : UnitGraph} {bcx : BuildContext} {doc : SerializedUnitGraph}
    (h : emit_serialized_unit_graph root_units unit_graph bcx = some doc) :
    ∀ su ∈ doc.units, ∀ dep ∈ su.dependencies,
      (bcx.nightly_features_allowed = false →
        dep.public = none ∧ dep.noprelude = none) ∧
      (bcx.nightly_features_allowed = true →
        (∃ a, dep.public = some a) ∧ (∃ b, dep.noprelude = some b)) := by
  obtain ⟨roots, ser_units, _, hs, hdoc⟩ := emit_eq_some_iff.mp h
  subst hdoc
  intro su hsu dep hdep
  obtain ⟨p, _, hp⟩ := mapMo_mem hs su hsu
  simp only [serializeUnit, Option.map_eq_some'] at hp
  obtain ⟨deps, hdeps, hsueq⟩ := hp
  subst hsueq
  simp only at hdep
  obtain ⟨d, _, hd⟩ := mapMo_mem hdeps dep hdep
  simp only [serializeUnitDep, Option.map_eq_some'] at hd
  obtain ⟨idx, _, hdepeq⟩ := hd
  subst hdepeq
  cases hn : bcx.nightly_features_allowed <;> simp [hn]

/-- Witness for C8 at a concrete graph under the nightly context. -/
theorem emit_public_noprelude_paired_witness :
    emit_serialized_unit_graph [mkUnit 1]
        [(mkUnit 1, [mkDep (mkUnit 2)]), (mkUnit 2, [])] bcxNightly =
      some wDocNightly ∧
    (∀ su ∈ wDocNightly.units, ∀ dep ∈ su.dependencies,
      (bcxNightly.nightly_features_allowed = false →
        dep.public = none ∧ dep.noprelude = none) ∧
      (bcxNightly.nightly_features_allowed = true →
        (∃ a, dep.public = some a) ∧ (∃ b, dep.noprelude = some b))) :=
  ⟨by decide,
    @emit_public_noprelude_paired [mkUnit 1]
      [(mkUnit 1, [mkDep (mkUnit 2)]), (mkUnit 2, [])] bcxNightly wDocNightly
      (by decide)⟩

/-- Claim C1 (evidence of the divergence): on a document with one unit and a
dangling root index, validation fails naming the offending index but prints
the visited-set size (here 0) where the claim requires the document's total
unit count (here 1): the source interpolates `used_units.len()` into a
message that speaks about how many units the graph contains. -/
theorem validate_dangling_reports_visited_count :
    validate { version := 1, units := [mkSU 7 []], roots := [1] } =
      some ({ version := 1, units := [mkSU 7 []], roots := [1] },
        .error (danglingMsg 1 0)) ∧
    danglingMsg 1 0 =
      "unit graph has a dependency on unit #1 but contains only 0 units" ∧
    ({ version := 1, units := [mkSU 7 []], roots := [1] } :
        SerializedUnitGraph).units.length = 1 :=
  ⟨by with_unfolding_all decide, by with_unfolding_all decide, rfl⟩

/-- Counterexample for C2: a well-formed document whose version field (999)
is not the version the loader understands (`VERSION = 1`) is accepted by
`validate` with no error: no version check exists in the code. -/
theorem validate_accepts_unknown_version :
    VERSION = 1 ∧
    validate { version := 999, units := [], roots := [] } =
      some ({ version := 999, units := [], roots := [] }, .ok []) :=
  ⟨rfl, by decide⟩

/-- Claim C2 as amended: `validate` never inspects the version field; its
outcome on a document is independent of the version, which is carried through
unchanged. -/
theorem validate_ignores_version (g : SerializedUnitGraph) (v : Nat) :
    validate { g with version := v } =
      (validate g).map (fun p => ({ p.1 with version := v }, p.2)) := by
  show (match collectUsed g.units (graphFuel g) g.roots.reverse ∅ with
    | none => none
    | some (.error e) => some ({ g with version := v }, Except.error e)
    | some (.ok used) =>
      if used.card = g.units.length then
        some ({ g with version := v }, .ok [])
      else
        (compactUnits (imapOf (sortedUsed g.units.length used))
            (enumFrom 0 g.units)).bind (fun p =>
          (mapMo (imapOf (sortedUsed g.units.length used)) g.roots).map (fun roots =>
            ({ version := v, units := p.1, roots := roots }, .ok p.2)))) = _
  cases hcu : collectUsed g.units (graphFuel g) g.roots.reverse ∅ with
  | none => simp [validate, hcu]
  | some r =>
    cases r with
    | error e => simp [validate, hcu]
    | ok used =>
      by_cases hcard : used.card = g.units.length
      · simp [validate, hcu, hcard]
      · simp only [validate, hcu, if_neg hcard]
        cases hcp : compactUnits (imapOf (sortedUsed g.units.length used))
            (enumFrom 0 g.units) with
        | none => simp
        | some p =>
          cases hmr : mapMo (imapOf (sortedUsed g.units.length used)) g.roots with
          | none => simp
          | some roots => simp

/-- Claim C10 (atomicity on failure): whenever `validate` returns the
dangling-index error, the returned document state is exactly the input
document: the error is raised during the read-only reachability pass, before
any compaction takes place. -/
theorem validate_error_atomic {g g2 : SerializedUnitGraph} {e : String}
    (h : validate g = some (g2, .error e)) : g2 = g := by
  simp only [validate] at h
  split at h
  · cases h
  · simp only [Option.some.injEq, Prod.mk.injEq] at h
    exact h.1.symm
  · split at h
    · simp only [Option.some.injEq, Prod.mk.injEq] at h
      cases h.2
    · simp only [Option.bind_eq_some, Option.map_eq_some'] at h
      obtain ⟨p, _, roots, _, hpair⟩ := h
      simp only [Prod.mk.injEq] at hpair
      exact absurd hpair.2 (by simp)

/-- Witness for C10 at a concrete document with a dangling root index. -/
theorem validate_error_atomic_witness :
    validate { version := 1, units := [mkSU 3 []], roots := [5] } =
      some ({ version := 1, units := [mkSU 3 []], roots := [5] },
        .error (danglingMsg 5 0)) ∧
    ({ version := 1, units := [mkSU 3 []], roots := [5] } :
        SerializedUnitGraph) =
      { version := 1, units := [mkSU 3 []], roots := [5] } :=
  ⟨by with_unfolding_all decide,
    @validate_error_atomic { version := 1, units := [mkSU 3 []], roots := [5] }
      { version := 1, units := [mkSU 3 []], roots := [5] } (danglingMsg 5 0)
      (by with_unfolding_all decide)⟩

/-! ## Properties of the work-list loop -/

/-- Dependency indices of the unit stored at position `i`, as a plain list
(empty when out of range). -/
def depsAt (units : List SerializedUnit) (i : Nat) : List Nat :=
  match units.get? i with
  | some u => depIndices u
  | none => []

instance : Inhabited SerializedUnit := ⟨mkSU 0 []⟩

/-- Copy of a serialized unit with its dependency indices rewritten through
the old-to-new map (total form, used to state what compaction produces). -/
def rewriteUnitF (imap : Nat → Option Nat) (u : SerializedUnit) : SerializedUnit :=
  { u with dependencies :=
      u.dependencies.map (fun dep => { dep with index := (imap dep.index).getD 0 }) }

/-- Copy of a serialized unit with all dependency indices zeroed: two units
agree on every serialized attribute except the numeric indices exactly when
their `stripIndices` images are equal. -/
def stripIndices (u : SerializedUnit) : SerializedUnit :=
  { u with dependencies := u.dependencies.map (fun dep => { dep with index := 0 }) }

/-- Total weight of the dependency lists of the not-yet-visited units. -/
def depsWeight (units : List SerializedUnit) (used : Finset Nat) : Nat :=
  ∑ i ∈ Finset.range units.length \ used, (depsAt units i).length

theorem depsAt_get (units : List SerializedUnit) (i : Nat) (h : i < units.length) :
    depsAt units i = depIndices (units.get ⟨i, h⟩) := by
  simp [depsAt, List.getElem?_eq_getElem h]

theorem collectUsed_ok_props (units : List SerializedUnit) :
    ∀ (fuel : Nat) (tv : List Nat) (used final : Finset Nat),
      collectUsed units fuel tv used = some (.ok final) →
      (∀ i ∈ used, i < units.length) →
      (∀ i ∈ used, ∀ d ∈ depsAt units i, d ∈ used ∨ d ∈ tv) →
      used ⊆ final ∧ (∀ x ∈ tv, x ∈ final) ∧
        (∀ i ∈ final, i < units.length) ∧
        (∀ i ∈ final, ∀ d ∈ depsAt units i, d ∈ final)
  | 0, tv, used, final => by intro h; cases h
  | fuel + 1, [], used, final => by
    intro h hb hcov
    simp only [collectUsed, Option.some.injEq, Except.ok.injEq] at h
    subst h
    exact ⟨Finset.Subset.refl _, by simp, hb,
      fun i hi d hd => (hcov i hi d hd).resolve_right (by simp)⟩
  | fuel + 1, index :: rest, used, final => by
    intro h hb hcov
    simp only [collectUsed] at h
    by_cases hlt : index < units.length
    · rw [dif_pos hlt] at h
      by_cases hmem : index ∈ used
      · rw [if_pos hmem] at h
        have hcov2 : ∀ i ∈ used, ∀ d ∈ depsAt units i, d ∈ used ∨ d ∈ rest := by
          intro i hi d hd
          rcases hcov i hi d hd with hd2 | hd2
          · exact Or.inl hd2
          · rcases List.mem_cons.mp hd2 with hd3 | hd3
            · exact Or.inl (hd3.symm ▸ hmem)
            · exact Or.inr hd3
        obtain ⟨h1, h2, h3, h4⟩ :=
          collectUsed_ok_props units fuel rest used final h hb hcov2
        refine ⟨h1, ?_, h3, h4⟩
        intro x hx
        rcases List.mem_cons.mp hx with hx | hx
        · exact h1 (hx.symm ▸ hmem)
        · exact h2 x hx
      · rw [if_neg hmem] at h
        have hb2 : ∀ i ∈ insert index used, i < units.length := by
          intro i hi
          rcases Finset.mem_insert.mp hi with hi | hi
          · exact hi ▸ hlt
          · exact hb i hi
        have hcov2 : ∀ i ∈ insert index used, ∀ d ∈ depsAt units i,
            d ∈ insert index used ∨
              d ∈ (depIndices (units.get ⟨index, hlt⟩)).reverse ++ rest := by
          intro i hi d hd
          rcases Finset.mem_insert.mp hi with hi | hi
          · subst hi
            refine Or.inr (List.mem_append.mpr (Or.inl ?_))
            rw [List.mem_reverse]
            rwa [depsAt_get units i hlt] at hd
          · rcases hcov i hi d hd with hd2 | hd2
            · exact Or.inl (Finset.mem_insert_of_mem hd2)
            · rcases List.mem_cons.mp hd2 with hd3 | hd3
              · exact Or.inl (hd3 ▸ Finset.mem_insert_self index used)
              · exact Or.inr (List.mem_append_right _ hd3)
        obtain ⟨h1, h2, h3, h4⟩ :=
          collectUsed_ok_props units fuel _ (insert index used) final h hb2 hcov2
        refine ⟨fun i hi => h1 (Finset.mem_insert_of_mem hi), ?_, h3, h4⟩
        intro x hx
        rcases List.mem_cons.mp hx with hx | hx
        · exact h1 (hx ▸ Finset.mem_insert_self index used)
        · exact h2 x (List.mem_append_right _ hx)
    · rw [dif_neg hlt] at h
      simp at h

theorem collectUsed_ok_reach (units : List SerializedUnit) (roots : List Nat) :
    ∀ (fuel : Nat) (tv : List Nat) (used final : Finset Nat),
      collectUsed units fuel tv used = some (.ok final) →
      (∀ x ∈ tv, DocReach units roots x) →
      (∀ i ∈ used, DocReach units roots i) →
      ∀ i ∈ final, DocReach units roots i
  | 0, tv, used, final => by intro h; cases h
  | fuel + 1, [], used, final => by
    intro h _ hused
    simp only [collectUsed, Option.some.injEq, Except.ok.injEq] at h
    subst h
    exact hused
  | fuel + 1, index :: rest, used, final => by
    intro h htv hused
    simp only [collectUsed] at h
    by_cases hlt : index < units.length
    · rw [dif_pos hlt] at h
      by_cases hmem : index ∈ used
      · rw [if_pos hmem] at h
        exact collectUsed_ok_reach units roots fuel rest used final h
          (fun x hx => htv x (List.mem_cons_of_mem _ hx)) hused
      · rw [if_neg hmem] at h
        have hri : DocReach units roots index := htv index (List.mem_cons_self _ _)
        refine collectUsed_ok_reach units roots fuel _ (insert index used) final h
          ?_ ?_
        · intro x hx
          rcases List.mem_append.mp hx with hx | hx
          · rw [List.mem_reverse] at hx
            obtain ⟨dep, hdep, hxi⟩ := List.mem_map.mp hx
            exact hxi ▸ DocReach.step hlt hri hdep
          · exact htv x (List.mem_cons_of_mem _ hx)
        · intro i hi
          rcases Finset.mem_insert.mp hi with hi | hi
          · exact hi ▸ hri
          · exact hused i hi
    · rw [dif_neg hlt] at h
      simp at h

theorem collectUsed_ok_of_reach (units : List SerializedUnit) (roots : List Nat)
    (hrb : ∀ j, DocReach units roots j → j < units.length) :
    ∀ (fuel : Nat) (tv : List Nat) (used : Finset Nat),
      (∀ x ∈ tv, DocReach units roots x) →
      (∀ i ∈ used, DocReach units roots i) →
      tv.length + depsWeight units used < fuel →
      ∃ final, collectUsed units fuel tv used = some (.ok final)
  | 0, tv, used => by
    intro _ _ hf
    exact absurd hf (Nat.not_lt_zero _)
  | fuel + 1, [], used => fun _ _ _ => ⟨used, by simp [collectUsed]⟩
  | fuel + 1, index :: rest, used => by
    intro htv hused hf
    have hri : DocReach units roots index := htv index (List.mem_cons_self _ _)
    have hlt : index < units.length := hrb index hri
    simp only [collectUsed, dif_pos hlt]
    by_cases hmem : index ∈ used
    · rw [if_pos hmem]
      refine collectUsed_ok_of_reach units roots hrb fuel rest used
        (fun x hx => htv x (List.mem_cons_of_mem _ hx)) hused ?_
      simp only [List.length_cons] at hf
      omega
    · rw [if_neg hmem]
      have hkey : depsWeight units used =
          (depsAt units index).length + depsWeight units (insert index used) := by
        have hidx : index ∈ Finset.range units.length \ used := by
          simp [Finset.mem_sdiff, Finset.mem_range, hlt, hmem]
        have hdiff : Finset.range units.length \ insert index used =
            (Finset.range units.length \ used).erase index := by
          ext a
          simp only [Finset.mem_sdiff, Finset.mem_erase, Finset.mem_range,
            Finset.mem_insert]
          tauto
        rw [depsWeight, depsWeight, hdiff,
          ← Finset.add_sum_erase _ _ hidx]
      refine collectUsed_ok_of_reach units roots hrb fuel _ (insert index used)
        ?_ ?_ ?_
      · intro x hx
        rcases List.mem_append.mp hx with hx | hx
        · rw [List.mem_reverse] at hx
          obtain ⟨dep, hdep, hxi⟩ := List.mem_map.mp hx
          exact hxi ▸ DocReach.step hlt hri hdep
        · exact htv x (List.mem_cons_of_mem _ hx)
      · intro i hi
        rcases Finset.mem_insert.mp hi with hi | hi
        · exact hi ▸ hri
        · exact hused i hi
      · have hlen : (depIndices (units.get ⟨index, hlt⟩)).length =
            (depsAt units index).length := by rw [depsAt_get units index hlt]
        simp only [List.length_append, List.length_reverse, List.length_cons] at hf ⊢
        omega

theorem sum_range_depsAt (units : List SerializedUnit) :
    ∑ i ∈ Finset.range units.length, (depsAt units i).length =
      (units.map (fun u => u.dependencies.length)).sum := by
  induction units with
  | nil => simp
  | cons u us ih =>
    rw [List.length_cons, Finset.sum_range_succ']
    have hs : ∀ i, depsAt (u :: us) (i + 1) = depsAt us i := fun i => rfl
    have h0 : depsAt (u :: us) 0 = depIndices u := rfl
    simp only [hs, h0, ih, List.map_cons, List.sum_cons, depIndices,
      List.length_map]
    omega

theorem depsWeight_empty (units : List SerializedUnit) :
    depsWeight units ∅ = (units.map (fun u => u.dependencies.length)).sum := by
  rw [depsWeight, Finset.sdiff_empty, sum_range_depsAt]

theorem collectUsed_graphFuel_ok {g : SerializedUnitGraph}
    (hrb : ∀ j, DocReach g.units g.roots j → j < g.units.length) :
    ∃ final, collectUsed g.units (graphFuel g) g.roots.reverse ∅ = some (.ok final) := by
  refine collectUsed_ok_of_reach g.units g.roots hrb (graphFuel g) g.roots.reverse ∅
    (fun x hx => DocReach.root (List.mem_reverse.mp hx)) (by simp) ?_
  rw [List.length_reverse, depsWeight_empty, graphFuel]
  omega

theorem docReach_of_mem_final {g : SerializedUnitGraph} {final : Finset Nat}
    (hcu : collectUsed g.units (graphFuel g) g.roots.reverse ∅ = some (.ok final)) :
    ∀ i ∈ final, DocReach g.units g.roots i :=
  collectUsed_ok_reach g.units g.roots (graphFuel g) g.roots.reverse ∅ final hcu
    (fun x hx => DocReach.root (List.mem_reverse.mp hx)) (by simp)

theorem mem_final_of_docReach {g : SerializedUnitGraph} {final : Finset Nat}
    (hcu : collectUsed g.units (graphFuel g) g.roots.reverse ∅ = some (.ok final)) :
    ∀ i, DocReach g.units g.roots i → i ∈ final := by
  obtain ⟨-, htv, -, hclosed⟩ := collectUsed_ok_props g.units (graphFuel g)
    g.roots.reverse ∅ final hcu (by simp) (by simp)
  intro i hi
  induction hi with
  | root hmem => exact htv _ (List.mem_reverse.mpr hmem)
  | step hlt hre hdep =>
    rename_i ih
    refine hclosed _ ih _ ?_
    rw [depsAt_get _ _ hlt]
    exact List.mem_map.mpr ⟨_, hdep, rfl⟩

theorem final_lt_length {g : SerializedUnitGraph} {final : Finset Nat}
    (hcu : collectUsed g.units (graphFuel g) g.roots.reverse ∅ = some (.ok final)) :
    ∀ i ∈ final, i < g.units.length :=
  (collectUsed_ok_props g.units (graphFuel g) g.roots.reverse ∅ final hcu
    (by simp) (by simp)).2.2.1

theorem final_closed {g : SerializedUnitGraph} {final : Finset Nat}
    (hcu : collectUsed g.units (graphFuel g) g.roots.reverse ∅ = some (.ok final)) :
    ∀ i ∈ final, ∀ d ∈ depsAt g.units i, d ∈ final :=
  (collectUsed_ok_props g.units (graphFuel g) g.roots.reverse ∅ final hcu
    (by simp) (by simp)).2.2.2

/-! ## Properties of the compaction pass -/

theorem mapMo_eq_map {A B : Type} {f : A → Option B} {g : A → B} :
    ∀ {l : List A}, (∀ a ∈ l, f a = some (g a)) → mapMo f l = some (l.map g)
  | [], _ => rfl
  | a :: as, h => by
    have ha := h a (List.mem_cons_self a as)
    have hrest := mapMo_eq_map (fun x hx => h x (List.mem_cons_of_mem a hx))
    simp [mapMo, ha, hrest]

theorem enumFrom_length {A : Type} (k : Nat) :
    ∀ l : List A, (enumFrom k l).length = l.length
  | [] => rfl
  | a :: as => by simp [enumFrom, enumFrom_length (k + 1) as]

theorem imapOf_isSome_iff {su : List Nat} {old : Nat} :
    (imapOf su old).isSome = true ↔ old ∈ su := by
  constructor
  · intro h
    obtain ⟨i, hi⟩ := Option.isSome_iff_exists.mp h
    have hp := findIdxo_get hi
    simp only [decide_eq_true_eq] at hp
    exact hp ▸ List.get_mem su _ _
  · intro h
    exact findIdxo_isSome ⟨old, h, by simp⟩

theorem mem_sortedUsed {n i : Nat} {used : Finset Nat} :
    i ∈ sortedUsed n used ↔ i < n ∧ i ∈ used := by
  simp [sortedUsed, List.mem_filter, List.mem_range]

theorem sortedUsed_nodup (n : Nat) (used : Finset Nat) :
    (sortedUsed n used).Nodup :=
  (List.nodup_range n).filter _

theorem sortedUsed_length {n : Nat} {used : Finset Nat} (h : ∀ i ∈ used, i < n) :
    (sortedUsed n used).length = used.card := by
  have hfs : (sortedUsed n used).toFinset = used := by
    ext i
    rw [List.mem_toFinset, mem_sortedUsed]
    exact ⟨fun hi => hi.2, fun hi => ⟨h i hi, hi⟩⟩
  calc (sortedUsed n used).length
      = (sortedUsed n used).toFinset.card :=
        (List.toFinset_card_of_nodup (sortedUsed_nodup n used)).symm
    _ = used.card := by rw [hfs]

theorem sortedUsed_empty (n : Nat) : sortedUsed n (∅ : Finset Nat) = [] := by
  simp [sortedUsed]

theorem compactUnits_spec (imap : Nat → Option Nat) :
    ∀ (l : List (Nat × SerializedUnit)),
      (∀ p ∈ l, (imap p.1).isSome = true →
        ∀ dep ∈ p.2.dependencies, (imap dep.index).isSome = true) →
      compactUnits imap l =
        some ((l.filter (fun p => (imap p.1).isSome)).map
            (fun p => rewriteUnitF imap p.2),
          (l.filter (fun p => !(imap p.1).isSome)).map
            (fun p => warnMsg p.1 p.2.pkg_id))
  | [], _ => rfl
  | (index, u) :: rest, h => by
    have hrest := compactUnits_spec imap rest
      (fun p hp => h p (List.mem_cons_of_mem _ hp))
    by_cases hs : (imap index).isSome = true
    · obtain ⟨v, hv⟩ := Option.isSome_iff_exists.mp hs
      have hdeps : mapMo (rewriteDep imap) u.dependencies =
          some (u.dependencies.map
            (fun dep => { dep with index := (imap dep.index).getD 0 })) := by
        refine mapMo_eq_map ?_
        intro dep hdep
        have hsome := h (index, u) (List.mem_cons_self _ _) hs dep hdep
        obtain ⟨w, hw⟩ := Option.isSome_iff_exists.mp hsome
        simp [rewriteDep, hw]
      simp [compactUnits, hv, hdeps, hrest, rewriteUnitF, List.filter_cons]
    · have hn : imap index = none := Option.not_isSome_iff_eq_none.mp hs
      simp [compactUnits, hn, hrest, List.filter_cons]

/-- Claim C9: validating any document with a non-empty unit list and an empty
root list prunes every unit, producing empty units and roots, with one
warning per removed unit (one warning for each unit of the input). -/
theorem validate_empty_roots {g : SerializedUnitGraph} (hroots : g.roots = [])
    (hne : g.units ≠ []) :
    ∃ ws, validate g =
        some ({ version := g.version, units := [], roots := [] }, .ok ws) ∧
      ws = (enumFrom 0 g.units).map (fun p => warnMsg p.1 p.2.pkg_id) ∧
      ws.length = g.units.length := by
  have hcu : collectUsed g.units (graphFuel g) g.roots.reverse ∅ =
      some (.ok (∅ : Finset Nat)) := by
    rw [hroots]
    rfl
  have hnone : ∀ x, imapOf (sortedUsed g.units.length (∅ : Finset Nat)) x = none := by
    intro x
    rw [sortedUsed_empty]
    rfl
  have hfilf : (enumFrom 0 g.units).filter
      (fun p => (imapOf (sortedUsed g.units.length ∅) p.1).isSome) = [] := by
    rw [List.filter_eq_nil_iff]
    intro p _
    simp [hnone p.1]
  have hfilt : (enumFrom 0 g.units).filter
      (fun p => !(imapOf (sortedUsed g.units.length ∅) p.1).isSome) =
      enumFrom 0 g.units := by
    rw [List.filter_eq_self]
    intro p _
    simp [hnone p.1]
  have hcomp : compactUnits (imapOf (sortedUsed g.units.length (∅ : Finset Nat)))
      (enumFrom 0 g.units) =
      some ([], (enumFrom 0 g.units).map (fun p => warnMsg p.1 p.2.pkg_id)) := by
    rw [compactUnits_spec _ _ (fun p _ hps => absurd hps (by simp [hnone p.1])),
      hfilf, hfilt]
    simp
  have hne0 : ¬((∅ : Finset Nat).card = g.units.length) := by
    simp only [Finset.card_empty]
    exact (List.length_pos.mpr hne).ne
  refine ⟨(enumFrom 0 g.units).map (fun p => warnMsg p.1 p.2.pkg_id), ?_, rfl, ?_⟩
  · simp only [validate, hcu]
    rw [if_neg hne0, hcomp]
    rw [hroots]
    rfl
  · rw [List.length_map, enumFrom_length]

/-- Witness for C9 at a concrete two-unit document with empty roots. -/
theorem validate_empty_roots_witness :
    ({ version := 1, units := [mkSU 7 [], mkSU 8 []], roots := [] } :
      SerializedUnitGraph).roots = [] ∧
    ({ version := 1, units := [mkSU 7 [], mkSU 8 []], roots := [] } :
      SerializedUnitGraph).units ≠ [] ∧
    ∃ ws, validate { version := 1, units := [mkSU 7 [], mkSU 8 []], roots := [] } =
        some ({ version := 1, units := [], roots := [] }, .ok ws) ∧
      ws = (enumFrom 0 [mkSU 7 [], mkSU 8 []]).map
        (fun p => warnMsg p.1 p.2.pkg_id) ∧
      ws.length = 2 :=
  ⟨rfl, by decide,
    @validate_empty_roots
      { version := 1, units := [mkSU 7 [], mkSU 8 []], roots := [] }
      rfl (by decide)⟩

/-- A concrete fully-reachable two-unit document with a dependency cycle. -/
def wDocFull : SerializedUnitGraph :=
  { version := 1, units := [mkSU 1 [1], mkSU 2 [0]], roots := [0] }

/-- Counterexample for C6: a document in which every unit index in
`[0, units.len())` is reachable from the roots, but whose single (reachable)
unit records an out-of-range dependency index 5: validate fails with the
dangling-index error instead of returning the document unchanged, so
reachability of every unit index alone does not imply idempotence. -/
theorem validate_identity_needs_bounds :
    (∀ i < ({ version := 1, units := [mkSU 7 [5]], roots := [0] } :
        SerializedUnitGraph).units.length,
      DocReach [mkSU 7 [5]] [0] i) ∧
    validate { version := 1, units := [mkSU 7 [5]], roots := [0] } =
      some ({ version := 1, units := [mkSU 7 [5]], roots := [0] },
        .error (danglingMsg 5 1)) := by
  constructor
  · intro i hi
    simp only [List.length_singleton] at hi
    have h0 : i = 0 := by omega
    subst h0
    exact DocReach.root (by simp)
  · with_unfolding_all decide

/-- Claim C6 as amended (idempotent validation): on a document whose root
indices and dependency indices are all in range and in which every unit index
is reachable from the roots, validate returns the document unchanged with no
warnings. -/
theorem validate_identity {g : SerializedUnitGraph}
    (hroots : ∀ r ∈ g.roots, r < g.units.length)
    (hdeps : ∀ u ∈ g.units, ∀ dep ∈ u.dependencies, dep.index < g.units.length)
    (hall : ∀ i < g.units.length, DocReach g.units g.roots i) :
    validate g = some (g, .ok []) := by
  have hrb : ∀ j, DocReach g.units g.roots j → j < g.units.length := by
    intro j hj
    induction hj with
    | root hmem => exact hroots _ hmem
    | step hlt hre hdep => exact hdeps _ (List.get_mem _ _ _) _ hdep
  obtain ⟨final, hcu⟩ := collectUsed_graphFuel_ok hrb
  have hfin : final = Finset.range g.units.length :=
    Finset.Subset.antisymm
      (fun i hi => Finset.mem_range.mpr (final_lt_length hcu i hi))
      (fun i hi => mem_final_of_docReach hcu i (hall i (Finset.mem_range.mp hi)))
  have hcard : final.card = g.units.length := by rw [hfin, Finset.card_range]
  simp only [validate, hcu]
  rw [if_pos hcard]

/-- Witness for C6 (amended) at a concrete fully-reachable cyclic document. -/
theorem validate_identity_witness :
    (∀ r ∈ wDocFull.roots, r < wDocFull.units.length) ∧
    (∀ u ∈ wDocFull.units, ∀ dep ∈ u.dependencies,
      dep.index < wDocFull.units.length) ∧
    (∀ i < wDocFull.units.length, DocReach wDocFull.units wDocFull.roots i) ∧
    validate wDocFull = some (wDocFull, .ok []) := by
  have hr0 : DocReach wDocFull.units wDocFull.roots 0 :=
    DocReach.root (by simp [wDocFull])
  have hall : ∀ i < wDocFull.units.length, DocReach wDocFull.units wDocFull.roots i := by
    intro i hi
    simp [wDocFull] at hi
    rcases (by omega : i = 0 ∨ i = 1) with h | h
    · exact h ▸ hr0
    · subst h
      exact @DocReach.step wDocFull.units wDocFull.roots 0 (by simp [wDocFull])
        ⟨1, 0, none, none, none, 0⟩ hr0 (by simp [wDocFull, mkSU])
  exact ⟨by decide, by decide, hall, validate_identity (by decide) (by decide) hall⟩

/-! ## The compaction branch of `validate` -/

theorem enumFrom_eq_map {A : Type} [Inhabited A] :
    ∀ (l : List A) (k : Nat),
      enumFrom k l = (List.range l.length).map (fun i => (k + i, l.getD i default))
  | [], _ => rfl
  | a :: as, k => by
    have ih := enumFrom_eq_map as (k + 1)
    rw [List.length_cons, List.range_succ_eq_map, List.map_cons, List.map_map]
    show (k, a) :: enumFrom (k + 1) as = _ :: _
    rw [ih]
    congr 1
    refine List.map_congr_left ?_
    intro i _
    show (k + 1 + i, as.getD i default) =
      (k + (i + 1), (a :: as).getD (i + 1) default)
    rw [List.getD_cons_succ]
    congr 1
    omega

theorem enumFrom_zero {A : Type} [Inhabited A] (l : List A) :
    enumFrom 0 l = (List.range l.length).map (fun i => (i, l.getD i default)) := by
  rw [enumFrom_eq_map l 0]
  refine List.map_congr_left ?_
  intro i _
  rw [Nat.zero_add]

theorem mem_enumFrom_zero {A : Type} [Inhabited A] {l : List A} {p : Nat × A}
    (h : p ∈ enumFrom 0 l) : p.1 < l.length ∧ p.2 = l.getD p.1 default := by
  rw [enumFrom_zero] at h
  obtain ⟨i, hi, hp⟩ := List.mem_map.mp h
  rw [List.mem_range] at hi
  subst hp
  exact ⟨hi, rfl⟩

/-- Claim C7 (pruning): on a document whose reachable indices are all in
range and which has at least one unreachable unit, validate succeeds; the
surviving units are exactly the reachable old indices `keep`, taken in their
original (ascending) relative order and renumbered through the old-to-new
map `imapOf keep`; every surviving dependency index and every root index is
rewritten through that map, and every index so rewritten is a key of the map
(the rewrite never panics), because reachability is closed under the edge
relation. -/
theorem validate_prunes {g : SerializedUnitGraph}
    (hrb : ∀ j, DocReach g.units g.roots j → j < g.units.length)
    (hunreach : ∃ j, j < g.units.length ∧ ¬ DocReach g.units g.roots j) :
    ∃ keep ws,
      validate g = some
        ({ version := g.version,
           units := keep.map
             (fun i => rewriteUnitF (imapOf keep) (g.units.getD i default)),
           roots := g.roots.map (fun r => (imapOf keep r).getD 0) }, .ok ws) ∧
      (∀ i, i ∈ keep ↔ i < g.units.length ∧ DocReach g.units g.roots i) ∧
      List.Sorted (· < ·) keep ∧
      (∀ i ∈ keep, ∀ dep ∈ (g.units.getD i default).dependencies,
        (imapOf keep dep.index).isSome = true) ∧
      (∀ r ∈ g.roots, (imapOf keep r).isSome = true) := by
  obtain ⟨used, hcu⟩ := collectUsed_graphFuel_ok hrb
  have hsound := docReach_of_mem_final hcu
  have hcomplete := mem_final_of_docReach hcu
  have hbound := final_lt_length hcu
  have hclosed := final_closed hcu
  refine ⟨sortedUsed g.units.length used, ?_⟩
  have hmemkeep : ∀ i, i ∈ sortedUsed g.units.length used ↔
      i < g.units.length ∧ DocReach g.units g.roots i := by
    intro i
    rw [mem_sortedUsed]
    exact ⟨fun h => ⟨h.1, hsound i h.2⟩, fun h => ⟨h.1, hcomplete i h.2⟩⟩
  have hsomeiff : ∀ i, (imapOf (sortedUsed g.units.length used) i).isSome = true ↔
      i < g.units.length ∧ DocReach g.units g.roots i := by
    intro i
    rw [imapOf_isSome_iff]
    exact hmemkeep i
  obtain ⟨j, hjn, hjun⟩ := hunreach
  have hcard : ¬(used.card = g.units.length) := by
    intro hc
    have hsub : used ⊆ Finset.range g.units.length :=
      fun i hi => Finset.mem_range.mpr (hbound i hi)
    have heq : used = Finset.range g.units.length :=
      Finset.eq_of_subset_of_card_le hsub (by rw [hc, Finset.card_range])
    exact hjun (hsound j (by rw [heq]; exact Finset.mem_range.mpr hjn))
  have hdepsome : ∀ i ∈ sortedUsed g.units.length used,
      ∀ dep ∈ (g.units.getD i default).dependencies,
        (imapOf (sortedUsed g.units.length used) dep.index).isSome = true := by
    intro i hik dep hdep
    obtain ⟨hin, hir⟩ := (hmemkeep i).mp hik
    have hiu : i ∈ used := hcomplete i hir
    have hgd : g.units.getD i default = g.units.get ⟨i, hin⟩ := by
      rw [List.getD_eq_getElem g.units default hin, List.get_eq_getElem]
    rw [hgd] at hdep
    have hdidx : dep.index ∈ depsAt g.units i := by
      rw [depsAt_get _ _ hin]
      exact List.mem_map.mpr ⟨dep, hdep, rfl⟩
    have hmem := hclosed i hiu dep.index hdidx
    exact (hsomeiff _).mpr ⟨hbound _ hmem, hsound _ hmem⟩
  have hrootsome : ∀ r ∈ g.roots,
      (imapOf (sortedUsed g.units.length used) r).isSome = true := by
    intro r hr
    have hrr : DocReach g.units g.roots r := DocReach.root hr
    exact (hsomeiff r).mpr ⟨hrb r hrr, hrr⟩
  have hcomp := compactUnits_spec (imapOf (sortedUsed g.units.length used))
    (enumFrom 0 g.units) (by
      intro p hp hps dep hdep
      obtain ⟨hp1, hp2⟩ := mem_enumFrom_zero hp
      have hpk : p.1 ∈ sortedUsed g.units.length used :=
        imapOf_isSome_iff.mp hps
      exact hdepsome p.1 hpk dep (by rwa [← hp2]))
  have hkeepfil : (List.range g.units.length).filter
      (fun i => (imapOf (sortedUsed g.units.length used) i).isSome) =
      sortedUsed g.units.length used := by
    conv_rhs => rw [sortedUsed]
    refine List.filter_congr ?_
    intro i hi
    rw [List.mem_range] at hi
    by_cases hm : i ∈ used
    · have h1 : (imapOf (sortedUsed g.units.length used) i).isSome = true :=
        imapOf_isSome_iff.mpr (mem_sortedUsed.mpr ⟨hi, hm⟩)
      rw [h1, decide_eq_true hm]
    · have h1 : ¬((imapOf (sortedUsed g.units.length used) i).isSome = true) := by
        rw [imapOf_isSome_iff, mem_sortedUsed]
        exact fun hc => hm hc.2
      rw [Bool.not_eq_true] at h1
      rw [h1, decide_eq_false hm]
  have hfilmap : (enumFrom 0 g.units).filter
      (fun p => (imapOf (sortedUsed g.units.length used) p.1).isSome) =
      (sortedUsed g.units.length used).map (fun i => (i, g.units.getD i default)) := by
    rw [enumFrom_zero, List.filter_map]
    show (List.filter
        (fun i => (imapOf (sortedUsed g.units.length used) i).isSome)
        (List.range g.units.length)).map
          (fun i => (i, g.units.getD i default)) = _
    rw [hkeepfil]
  have hus : ((enumFrom 0 g.units).filter
      (fun p => (imapOf (sortedUsed g.units.length used) p.1).isSome)).map
        (fun p => rewriteUnitF (imapOf (sortedUsed g.units.length used)) p.2) =
      (sortedUsed g.units.length used).map
        (fun i => rewriteUnitF (imapOf (sortedUsed g.units.length used))
          (g.units.getD i default)) := by
    rw [hfilmap, List.map_map]
    rfl
  have hroots2 : mapMo (imapOf (sortedUsed g.units.length used)) g.roots =
      some (g.roots.map
        (fun r => (imapOf (sortedUsed g.units.length used) r).getD 0)) := by
    refine mapMo_eq_map ?_
    intro r hr
    obtain ⟨v, hv⟩ := Option.isSome_iff_exists.mp (hrootsome r hr)
    rw [hv]
    rfl
  refine ⟨((enumFrom 0 g.units).filter
      (fun p => !(imapOf (sortedUsed g.units.length used) p.1).isSome)).map
        (fun p => warnMsg p.1 p.2.pkg_id), ?_, hmemkeep, ?_, hdepsome, hrootsome⟩
  · simp only [validate, hcu]
    rw [if_neg hcard, hcomp, Option.some_bind, hroots2, Option.map_some']
    rw [hus]
  · exact (List.sorted_lt_range g.units.length).filter _

/-- A concrete document with one unreachable unit: units A (depends on B),
B, C; roots = [A]; C is unreachable. -/
def wDocPrune : SerializedUnitGraph :=
  { version := 1, units := [mkSU 0 [1], mkSU 1 [], mkSU 2 []], roots := [0] }

/-- Witness for C7 at `wDocPrune`. -/
theorem validate_prunes_witness :
    (∀ j, DocReach wDocPrune.units wDocPrune.roots j →
      j < wDocPrune.units.length) ∧
    (∃ j, j < wDocPrune.units.length ∧
      ¬DocReach wDocPrune.units wDocPrune.roots j) ∧
    ∃ keep ws,
      validate wDocPrune = some
        ({ version := wDocPrune.version,
           units := keep.map
             (fun i => rewriteUnitF (imapOf keep) (wDocPrune.units.getD i default)),
           roots := wDocPrune.roots.map (fun r => (imapOf keep r).getD 0) },
          .ok ws) ∧
      (∀ i, i ∈ keep ↔ i < wDocPrune.units.length ∧
        DocReach wDocPrune.units wDocPrune.roots i) ∧
      List.Sorted (· < ·) keep ∧
      (∀ i ∈ keep, ∀ dep ∈ (wDocPrune.units.getD i default).dependencies,
        (imapOf keep dep.index).isSome = true) ∧
      (∀ r ∈ wDocPrune.roots, (imapOf keep r).isSome = true) := by
  have hre : ∀ j, DocReach wDocPrune.units wDocPrune.roots j → j = 0 ∨ j = 1 := by
    intro j hj
    induction hj with
    | root hmem =>
      left
      simpa [wDocPrune] using hmem
    | step hlt hre2 hdep ih =>
      rename_i i dep
      rcases ih with rfl | rfl
      · right
        have hd : dep = ⟨1, 0, none, none, none, 0⟩ := by
          simpa [wDocPrune, mkSU] using hdep
        rw [hd]
      · exact absurd hdep (by simp [wDocPrune, mkSU])
  have hrb : ∀ j, DocReach wDocPrune.units wDocPrune.roots j →
      j < wDocPrune.units.length := by
    intro j hj
    rcases hre j hj with rfl | rfl <;> simp [wDocPrune]
  have hun : ∃ j, j < wDocPrune.units.length ∧
      ¬DocReach wDocPrune.units wDocPrune.roots j := by
    refine ⟨2, by simp [wDocPrune], fun h => ?_⟩
    rcases hre 2 h with h2 | h2 <;> omega
  exact ⟨hrb, hun, validate_prunes hrb hun⟩

/-! ## Correspondence between document reachability and graph reachability -/

instance : Inhabited Unit := ⟨mkUnit 0⟩

theorem stripIndices_rewriteUnitF (imap : Nat → Option Nat) (u : SerializedUnit) :
    stripIndices (rewriteUnitF imap u) = stripIndices u := by
  simp only [stripIndices, rewriteUnitF, List.map_map]
  rfl

theorem indicesOf_get {units : UnitGraph} {u : Unit} {i : Nat}
    (h : indicesOf units u = some i) :
    ∃ hlt : i < units.length, (units.get ⟨i, hlt⟩).1 = u := by
  have hlt := findIdxo_lt_length h
  have hp := findIdxo_get h
  simp only [decide_eq_true_eq] at hp
  exact ⟨hlt, hp⟩

theorem mapMo_get {A B : Type} {f : A → Option B} :
    ∀ {l : List A} {l2 : List B}, mapMo f l = some l2 →
      ∀ (i : Nat) (h : i < l.length),
        ∃ h2 : i < l2.length, f (l.get ⟨i, h⟩) = some (l2.get ⟨i, h2⟩)
  | [], _, _, i, h => absurd h (by simp)
  | a :: as, l2, hm, i, h => by
    simp only [mapMo] at hm
    match hfa : f a, hrest : mapMo f as with
    | some b, some bs =>
      rw [hfa, hrest] at hm
      simp only [Option.some.injEq] at hm
      subst hm
      cases i with
      | zero => exact ⟨by simp, by simpa using hfa⟩
      | succ i2 =>
        obtain ⟨h2, hf⟩ := mapMo_get hrest i2 (by simpa using h)
        exact ⟨by simpa using h2, by simpa using hf⟩
    | some _, none => rw [hfa, hrest] at hm; cases hm
    | none, _ => rw [hfa] at hm; cases hm

theorem key_unique {l : UnitGraph} (hnd : (l.map Prod.fst).Nodup) :
    ∀ {u : Unit} {d1 d2 : List UnitDep},
      (u, d1) ∈ l → (u, d2) ∈ l → d1 = d2 := by
  induction l with
  | nil => intro u d1 d2 h1; cases h1
  | cons p rest ih =>
    intro u d1 d2 h1 h2
    rw [List.map_cons, List.nodup_cons] at hnd
    rcases List.mem_cons.mp h1 with h1 | h1 <;>
      rcases List.mem_cons.mp h2 with h2 | h2
    · rw [← h2] at h1
      exact congrArg Prod.snd h1
    · exact absurd (List.mem_map.mpr ⟨(u, d2), h2, by rw [← h1]⟩) hnd.1
    · exact absurd (List.mem_map.mpr ⟨(u, d1), h1, by rw [← h2]⟩) hnd.1
    · exact ih hnd.2 h1 h2

/-- Claim C5 (round-trip closure): serializing a graph (all roots and edge
targets being keys, keys structurally distinct) and then validating the
resulting document succeeds; the validated document's unit count equals the
number of units reachable from the roots in the original graph, and every
surviving unit agrees with a unit of the emitted document on every serialized
attribute except the numeric dependency indices. -/
theorem emit_validate_roundtrip {root_units : List Unit} {unit_graph : UnitGraph}
    {bcx : BuildContext}
    (hnodup : (unit_graph.map Prod.fst).Nodup)
    (hroots : ∀ r ∈ root_units, r ∈ unit_graph.map Prod.fst)
    (hedges : ∀ p ∈ unit_graph, ∀ dep ∈ p.2, dep.unit ∈ unit_graph.map Prod.fst) :
    ∃ doc doc2 ws,
      emit_serialized_unit_graph root_units unit_graph bcx = some doc ∧
      validate doc = some (doc2, .ok ws) ∧
      doc2.units.length = Set.ncard {u : Unit | GraphReach unit_graph root_units u} ∧
      ∀ su ∈ doc2.units, ∃ su0 ∈ doc.units, stripIndices su = stripIndices su0 := by
  classical
  obtain ⟨doc, hemit, hrootlt, hdeplt⟩ :=
    @emit_dense root_units unit_graph bcx hroots hedges
  obtain ⟨droots, dunits, hr, hs, hdoc⟩ := emit_eq_some_iff.mp hemit
  subst hdoc
  simp only at hrootlt hdeplt
  have hlen : dunits.length = (sortedUnits unit_graph).length := mapMo_length hs
  have hrb : ∀ j, DocReach dunits droots j → j < dunits.length := by
    intro j hj
    induction hj with
    | root hmem => exact hrootlt _ hmem
    | step hlt hre hdep ih => exact hdeplt _ (List.get_mem _ _ _) _ hdep
  have hfor : ∀ i, DocReach dunits droots i →
      ∃ h : i < (sortedUnits unit_graph).length,
        GraphReach unit_graph root_units ((sortedUnits unit_graph).get ⟨i, h⟩).1 := by
    intro i0 hi0
    induction hi0 with
    | root hmem =>
      obtain ⟨r, hrm, hri⟩ := mapMo_mem hr _ hmem
      obtain ⟨hlt2, hkey⟩ := indicesOf_get hri
      exact ⟨hlt2, hkey.symm ▸ GraphReach.root hrm⟩
    | step hlt hre hdep ih =>
      rename_i i dep
      obtain ⟨h, hreach⟩ := ih
      obtain ⟨h2, hser⟩ := mapMo_get hs i h
      rw [serializeUnit] at hser
      obtain ⟨deps0, hdeps0, hju⟩ := Option.map_eq_some'.mp hser
      have hdd : (dunits.get ⟨i, hlt⟩).dependencies = deps0 := by
        have hgz : dunits.get ⟨i, hlt⟩ = dunits.get ⟨i, h2⟩ := rfl
        rw [hgz, ← hju]
      rw [hdd] at hdep
      obtain ⟨d0, hd0m, hd0⟩ := mapMo_mem hdeps0 dep hdep
      rw [serializeUnitDep] at hd0
      obtain ⟨idx, hidx, hdeq⟩ := Option.map_eq_some'.mp hd0
      obtain ⟨hidxlt, hidxkey⟩ := indicesOf_get hidx
      have hdepidx : dep.index = idx := by rw [← hdeq]
      have hedge2 : (((sortedUnits unit_graph).get ⟨i, h⟩).1,
          ((sortedUnits unit_graph).get ⟨i, h⟩).2) ∈ unit_graph :=
        (sortedUnits_perm unit_graph).mem_iff.mp (List.get_mem _ _ _)
      have hg0 : GraphReach unit_graph root_units d0.unit :=
        GraphReach.step hreach hedge2 hd0m
      rw [hdepidx]
      exact ⟨hidxlt, hidxkey.symm ▸ hg0⟩
  have hback : ∀ u, GraphReach unit_graph root_units u →
      ∃ (i : Nat) (h : i < (sortedUnits unit_graph).length),
        ((sortedUnits unit_graph).get ⟨i, h⟩).1 = u ∧ DocReach dunits droots i := by
    intro u0 hu0
    induction hu0 with
    | root hmem =>
      rename_i u
      have hks : u ∈ (sortedUnits unit_graph).map Prod.fst :=
        ((sortedUnits_perm unit_graph).map Prod.fst).mem_iff.mpr (hroots u hmem)
      obtain ⟨i, hi⟩ := Option.isSome_iff_exists.mp (indicesOf_isSome hks)
      obtain ⟨hlt2, hkeyeq⟩ := indicesOf_get hi
      obtain ⟨b, hbm, hb⟩ := mapMo_mem_of_mem hr u hmem
      rw [hi] at hb
      injection hb with hb2
      subst hb2
      exact ⟨i, hlt2, hkeyeq, DocReach.root hbm⟩
    | step hu' hedge hdmem ih =>
      rename_i u deps dep
      obtain ⟨i, h, hkeyeq, hdoc⟩ := ih
      have hpair : (((sortedUnits unit_graph).get ⟨i, h⟩).1,
          ((sortedUnits unit_graph).get ⟨i, h⟩).2) ∈ unit_graph :=
        (sortedUnits_perm unit_graph).mem_iff.mp (List.get_mem _ _ _)
      rw [hkeyeq] at hpair
      have hdeq : ((sortedUnits unit_graph).get ⟨i, h⟩).2 = deps :=
        key_unique hnodup hpair hedge
      obtain ⟨h2, hser⟩ := mapMo_get hs i h
      rw [serializeUnit] at hser
      obtain ⟨deps0, hdeps0, hju⟩ := Option.map_eq_some'.mp hser
      have hd2 : dep ∈ ((sortedUnits unit_graph).get ⟨i, h⟩).2 := by
        rw [hdeq]
        exact hdmem
      obtain ⟨sdep, hsdm, hsd⟩ := mapMo_mem_of_mem hdeps0 dep hd2
      rw [serializeUnitDep] at hsd
      obtain ⟨idx, hidx, hsdeq⟩ := Option.map_eq_some'.mp hsd
      obtain ⟨hidxlt, hidxkey⟩ := indicesOf_get hidx
      have hlti : i < dunits.length := by
        rw [hlen]
        exact h
      have hdd : (dunits.get ⟨i, hlti⟩).dependencies = deps0 := by
        have hgz : dunits.get ⟨i, hlti⟩ = dunits.get ⟨i, h2⟩ := rfl
        rw [hgz, ← hju]
      have hstep : DocReach dunits droots sdep.index :=
        DocReach.step hlti hdoc (by rw [hdd]; exact hsdm)
      have hsidx : sdep.index = idx := by rw [← hsdeq]
      rw [hsidx] at hstep
      exact ⟨idx, hidxlt, hidxkey, hstep⟩
  obtain ⟨used, hcu⟩ :=
    @collectUsed_graphFuel_ok ⟨VERSION, dunits, droots⟩ hrb
  have hsound := @docReach_of_mem_final ⟨VERSION, dunits, droots⟩ used hcu
  have hcomplete := @mem_final_of_docReach ⟨VERSION, dunits, droots⟩ used hcu
  have hbound := @final_lt_length ⟨VERSION, dunits, droots⟩ used hcu
  have hgetd : ∀ (i : Nat) (h : i < (sortedUnits unit_graph).length),
      (sortedUnits unit_graph).getD i default = (sortedUnits unit_graph).get ⟨i, h⟩ :=
    fun i h => by
      rw [List.getD_eq_getElem (sortedUnits unit_graph) default h]
      rfl
  have hcount : used.card =
      Set.ncard {u : Unit | GraphReach unit_graph root_units u} := by
    have hndk : ((sortedUnits unit_graph).map Prod.fst).Nodup :=
      ((sortedUnits_perm unit_graph).map Prod.fst).nodup_iff.mpr hnodup
    have hset : {u : Unit | GraphReach unit_graph root_units u} =
        ↑(used.image (fun i => ((sortedUnits unit_graph).getD i default).1)) := by
      ext u
      simp only [Set.mem_setOf_eq, Finset.coe_image, Set.mem_image, Finset.mem_coe]
      constructor
      · intro hu
        obtain ⟨i, h, hkeyeq, hdoc⟩ := hback u hu
        exact ⟨i, hcomplete i hdoc, by rw [hgetd i h, hkeyeq]⟩
      · rintro ⟨i, hiu, rfl⟩
        obtain ⟨h2, hreach⟩ := hfor i (hsound i hiu)
        rw [hgetd i h2]
        exact hreach
    rw [hset, Set.ncard_coe_Finset]
    refine (Finset.card_image_of_injOn ?_).symm
    intro i hi j hj hkeq
    simp only [Finset.mem_coe] at hi hj
    have hin : i < (sortedUnits unit_graph).length := by
      rw [← hlen]
      exact hbound i hi
    have hjn : j < (sortedUnits unit_graph).length := by
      rw [← hlen]
      exact hbound j hj
    have hkeq2 : ((sortedUnits unit_graph).getD i default).1 =
        ((sortedUnits unit_graph).getD j default).1 := hkeq
    rw [hgetd i hin, hgetd j hjn] at hkeq2
    have hmi : i < ((sortedUnits unit_graph).map Prod.fst).length := by
      simpa using hin
    have hmj : j < ((sortedUnits unit_graph).map Prod.fst).length := by
      simpa using hjn
    have h1 : ((sortedUnits unit_graph).map Prod.fst)[i] =
        ((sortedUnits unit_graph).map Prod.fst)[j] := by
      rw [List.getElem_map, List.getElem_map]
      exact hkeq2
    exact (hndk.getElem_inj_iff).mp h1
  by_cases hN : used.card = dunits.length
  · have hval : validate ⟨VERSION, dunits, droots⟩ =
        some (⟨VERSION, dunits, droots⟩, .ok []) := by
      simp only [validate, hcu]
      rw [if_pos hN]
    refine ⟨⟨VERSION, dunits, droots⟩, ⟨VERSION, dunits, droots⟩, [],
      hemit, hval, ?_, ?_⟩
    · show dunits.length = _
      rw [← hN, hcount]
    · intro su hsu
      exact ⟨su, hsu, rfl⟩
  · have hsub : used ⊆ Finset.range dunits.length :=
      fun i hi => Finset.mem_range.mpr (hbound i hi)
    have hne : used ≠ Finset.range dunits.length := by
      intro heq
      rw [heq, Finset.card_range] at hN
      exact hN rfl
    have hex2 : ∃ j, j ∈ Finset.range dunits.length ∧ j ∉ used := by
      by_contra hco
      push_neg at hco
      exact hne (Finset.Subset.antisymm hsub (fun j hj => hco j hj))
    obtain ⟨j, hjr, hju⟩ := hex2
    have hex : ∃ j, j < dunits.length ∧ ¬DocReach dunits droots j :=
      ⟨j, Finset.mem_range.mp hjr, fun hd => hju (hcomplete j hd)⟩
    obtain ⟨keep, ws, hval, hchar, hsorted, hdepsome, hrootsome⟩ :=
      @validate_prunes ⟨VERSION, dunits, droots⟩ hrb hex
    have hkeepnd : keep.Nodup := hsorted.nodup
    have hkeepfs : keep.toFinset = used := by
      ext i
      rw [List.mem_toFinset, hchar i]
      exact ⟨fun hh => hcomplete i hh.2, fun hh => ⟨hbound i hh, hsound i hh⟩⟩
    have hkeeplen : keep.length = used.card := by
      rw [← hkeepfs, List.toFinset_card_of_nodup hkeepnd]
    refine ⟨⟨VERSION, dunits, droots⟩, _, ws, hemit, hval, ?_, ?_⟩
    · show (keep.map _).length = _
      rw [List.length_map, hkeeplen, hcount]
    · intro su hsu
      obtain ⟨i, hik, hieq⟩ := List.mem_map.mp hsu
      have hin : i < dunits.length := ((hchar i).mp hik).1
      have hgd2 : (⟨VERSION, dunits, droots⟩ : SerializedUnitGraph).units.getD i default =
          dunits.get ⟨i, hin⟩ := by
        show dunits.getD i default = _
        rw [List.getD_eq_getElem dunits default hin]
        rfl
      refine ⟨dunits.get ⟨i, hin⟩, List.get_mem _ _ _, ?_⟩
      rw [← hieq, hgd2, stripIndices_rewriteUnitF]

/-- A concrete graph with two reachable units and one unreachable unit. -/
def wGraphRT : UnitGraph :=
  [(mkUnit 1, [mkDep (mkUnit 2)]), (mkUnit 2, []), (mkUnit 3, [])]

/-- Witness for C5 at `wGraphRT` with roots `[mkUnit 1]`. -/
theorem emit_validate_roundtrip_witness :
    (wGraphRT.map Prod.fst).Nodup ∧
    (∀ r ∈ [mkUnit 1], r ∈ wGraphRT.map Prod.fst) ∧
    (∀ p ∈ wGraphRT, ∀ dep ∈ p.2, dep.unit ∈ wGraphRT.map Prod.fst) ∧
    ∃ doc doc2 ws,
      emit_serialized_unit_graph [mkUnit 1] wGraphRT bcxStable = some doc ∧
      validate doc = some (doc2, .ok ws) ∧
      doc2.units.length = Set.ncard {u : Unit | GraphReach wGraphRT [mkUnit 1] u} ∧
      ∀ su ∈ doc2.units, ∃ su0 ∈ doc.units, stripIndices su = stripIndices su0 :=
  ⟨by decide, by decide, by decide,
    @emit_validate_roundtrip [mkUnit 1] wGraphRT bcxStable
      (by decide) (by decide) (by decide)⟩

end Cargo
